import Mathlib

/-!
Shallow embedding of the core of the `gherkin` crate (cucumber-rs/gherkin):
the parse environment (`GherkinEnv` in `src/parser.rs`), the data-table
rules (`table0` / `table`), keyword recognition (`keyword1` / `keyword0` /
`keyword`), contextual step-type resolution (`step` / `steps`,
`StepType::new_with_context` in `src/lib.rs`), the position translator
(`increment_nl` / `position`), the docstring rule (`textwrap::dedent`),
and the tag-expression grammar (`tag_in_expr_char` / `tag_in_expr` /
`tag_operation`).  Rust strings are embedded as `List Char`; machine
`usize` values as `Nat` (no overflow is reachable in the modelled code);
fallible rules return `Option` / `Except`.
-/

namespace Gherkin

/-- Type `StepType` from `src/lib.rs`: the resolved semantic role of a step. -/
inductive StepType where
  | given
  | wh
  | th
deriving DecidableEq, Repr

/-- Type `LineCol`: a 1-based line/column pair attached to every node. -/
structure LineCol where
  line : Nat
  col : Nat
deriving DecidableEq, Repr

/-- Type `Span`: half-open byte-offset range of a node. -/
structure Span where
  start : Nat
  stop : Nat
deriving DecidableEq, Repr

/-- Type `EnvError` from `src/parser.rs`: the structured environment errors. -/
inductive EnvError where
  | unsupportedLanguage (code : String)
  | unknownKeyword (kw : String)
  | inconsistentCellCount (rows : List (List String))
deriving DecidableEq, Repr

/-- Type `Table`: rows of trimmed cells plus span/position. -/
structure Table where
  rows : List (List String)
  span : Span
  position : LineCol
deriving DecidableEq, Repr

/-! ## Data tables: `table0` and `table` (`src/parser.rs` lines 227-249) -/

/-- The action of rule `table0`: given the parsed rows `d`, if non-empty,
truncate every row to the length of the first row
(`d.into_iter().map(|mut x| { x.truncate(len); x }).collect()`). -/
def table0 (d : List (List String)) : List (List String) :=
  match d with
  | [] => []
  | d0 :: _ => d.map (fun x => x.take d0.length)

/-- The action of rule `table`: run `table0`, then fail with
`InconsistentCellCount` when some row after the first differs in length
from the first row, otherwise build the `Table`. -/
def table (pa pb : Nat) (pos : LineCol) (d : List (List String)) :
    Except EnvError Table :=
  let t := table0 d
  match t with
  | [] => .ok ⟨t, ⟨pa, pb⟩, pos⟩
  | t0 :: trest =>
      if trest.any (fun x => x.length ≠ t0.length) then
        .error (.inconsistentCellCount t)
      else
        .ok ⟨t, ⟨pa, pb⟩, pos⟩

/-! ## Keyword recognition: `keyword1` / `keyword0` / `keyword`
(`src/parser.rs` lines 171-201).

`keyword1` grabs a window of the next `min(maxLen, |input|)` characters
(the bounded repetition `[_]*<min, max>` is possessive in PEG semantics:
it never retries with a shorter count), fails outright when fewer than
`min` characters remain, and otherwise looks for the first candidate in
list order that is a prefix of the window
(`list.iter().find(|x| input.starts_with(**x))`).  `keyword0` turns the
cached keyword into its character count and `keyword` consumes exactly
that many characters. -/

/-- Minimum candidate length (`list.iter().map(chars().count()).min()`). -/
def minKwLen (list : List (List Char)) : Nat :=
  (list.map List.length).foldr min ((list.map List.length).headD 0)

/-- Maximum candidate length (`list.iter().map(chars().count()).max()`). -/
def maxKwLen (list : List (List Char)) : Nat :=
  (list.map List.length).foldr max 0

/-- The keyword cached by `keyword1` / returned by `keyword`, as a function
of the candidate list and the remaining input: `none` models the rule
failing (no keyword consumed). -/
def keywordMatch (list : List (List Char)) (input : List Char) :
    Option (List Char) :=
  if input.length < minKwLen list then none
  else
    let window := input.take (maxKwLen list)
    list.find? (fun x => x.isPrefixOf window)

/-! ## The parse environment `GherkinEnv` (`src/parser.rs` lines 14-151) -/

/-- The mutable single-document parse state (`GherkinEnv`).  The active
keyword table is irrelevant to the claims settled below and is carried as
the language code currently in force. -/
structure Env where
  language : String
  lastError : Option EnvError
  fatalError : Option EnvError
  lastStep : Option StepType
  lastKeyword : Option String
  lineOffsets : List Nat
  wasEscaped : Bool
deriving DecidableEq, Repr

/-- Constructor `GherkinEnv::default()`: English keywords, empty error slots, line
offset list `vec![0]`. -/
def Env.default : Env :=
  { language := "en", lastError := none, fatalError := none,
    lastStep := none, lastKeyword := none, lineOffsets := [0],
    wasEscaped := false }

/-- Operation `GherkinEnv::set_fatal_error`: the first recorded fatal error wins;
later calls are ignored. -/
def Env.setFatalError (env : Env) (e : EnvError) : Env :=
  if env.fatalError.isSome then env else { env with fatalError := some e }

/-- Operation `GherkinEnv::set_last_error`. -/
def Env.setLastError (env : Env) (e : EnvError) : Env :=
  { env with lastError := some e }

/-- Operation `GherkinEnv::assert_no_error`: fails iff a fatal error was recorded. -/
def Env.assertNoError (env : Env) : Except String Unit :=
  if env.fatalError.isSome then .error "fatal error" else .ok ()

/-- Modelled from the spec: whether a language code has a keyword table.
`Keywords::get` consults a match generated at build time from
`src/languages.json`, which is not present in the sources, plus the
hard-coded `"formal"` dialect of `src/keywords.rs`; the spec stipulates
that `fr` is among the codes with no keyword table. -/
def supportedLanguage (code : String) : Bool :=
  code = "en" ∨ code = "formal"

/-- Operation `GherkinEnv::set_language`: on an unknown code, record the fatal
`UnsupportedLanguage` error and fail (which aborts the in-progress
`language_directive` rule); otherwise switch the keyword table. -/
def Env.setLanguage (env : Env) (code : String) :
    Env × Except String Unit :=
  if supportedLanguage code then
    ({ env with language := code }, .ok ())
  else
    (env.setFatalError (.unsupportedLanguage code), .error "Unsupported language")

/-- Operation `GherkinEnv::increment_nl`: append the offset to the line-offset list
unless it is already present (idempotent under PEG backtracking). -/
def Env.incrementNl (env : Env) (offset : Nat) : Env :=
  if offset ∈ env.lineOffsets then env
  else { env with lineOffsets := env.lineOffsets ++ [offset] }

/-- Operation `GherkinEnv::position`, with the panics of the Rust code
made explicit: the code
computes `line` as the index of the first recorded offset exceeding
`offset` (or the list length), then evaluates
`offset - line_offsets[line - 1] + 1`.  `none` models a panic: `line = 0`
(usize underflow in `line - 1`), an out-of-bounds index, or an
underflowing column subtraction. -/
def positionOf (lineOffsets : List Nat) (offset : Nat) : Option LineCol :=
  let line := (lineOffsets.findIdx? (fun x => offset < x)).getD lineOffsets.length
  if line = 0 then none
  else if hidx : line - 1 < lineOffsets.length then
    let base := lineOffsets.get ⟨line - 1, hidx⟩
    if base ≤ offset then some ⟨line, offset - base + 1⟩ else none
  else none

/-- The mutating environment operations reachable from the grammar
(`set_language`, `set_fatal_error`, `set_last_error`, `set_keyword`,
`clear_keyword`, `take_keyword`, `set_last_step`, `clear_last_step`,
`increment_nl`, `set_escaped`). -/
inductive EnvOp where
  | setLanguage (code : String)
  | setFatalError (e : EnvError)
  | setLastError (e : EnvError)
  | setKeyword (kw : String)
  | clearKeyword
  | takeKeyword
  | setLastStep (ty : StepType)
  | clearLastStep
  | incrementNl (offset : Nat)
  | setEscaped (b : Bool)
deriving DecidableEq, Repr

/-- One environment mutation. -/
def Env.applyOp (env : Env) : EnvOp → Env
  | .setLanguage code => (env.setLanguage code).1
  | .setFatalError e => env.setFatalError e
  | .setLastError e => env.setLastError e
  | .setKeyword kw => { env with lastKeyword := some kw }
  | .clearKeyword => { env with lastKeyword := none }
  | .takeKeyword => { env with lastKeyword := none }
  | .setLastStep ty => { env with lastStep := some ty }
  | .clearLastStep => { env with lastStep := none }
  | .incrementNl offset => env.incrementNl offset
  | .setEscaped b => { env with wasEscaped := b }

/-- A sequence of environment mutations. -/
def Env.applyOps (env : Env) : List EnvOp → Env
  | [] => env
  | op :: ops => (env.applyOp op).applyOps ops

/-- The final action of the top-level `feature` rule
(`src/parser.rs` lines 532-549): with `F` standing for the feature value
the grammar assembled, return it only when no fatal error was recorded. -/
def featureGate (env : Env) {F : Type} (f : F) : Except String F :=
  match env.assertNoError with
  | .error e => .error e
  | .ok _ => .ok f

/-! ## The position translator as used on a full document.

Every newline consumed by the grammar passes through `nl0()` wrapped in
`nl()` / `nl_no_comment()`, which record `position!()` — the offset just
after the `"\n"` — via `increment_nl`.  The input is consumed left to
right within any attempt, so by the time a node at offset `p` is built,
the recorded offsets are exactly `0` plus `i + 1` for every newline index
`i` of the consumed prefix, in increasing order. -/

/-- Offsets just after each `'\n'` of the source, in increasing order. -/
def nlOffsetsFrom (s : List Char) (i : Nat) : List Nat :=
  match s with
  | [] => []
  | c :: rest =>
      if c = '\n' then (i + 1) :: nlOffsetsFrom rest (i + 1)
      else nlOffsetsFrom rest (i + 1)

/-- The line-offset list accumulated once a source has been consumed. -/
def lineOffsetsOf (s : List Char) : List Nat :=
  0 :: nlOffsetsFrom s 0

/-- Number of `'\n'` characters strictly before `offset`. -/
def newlinesBefore (s : List Char) (offset : Nat) : Nat :=
  (s.take offset).count '\n'

/-- The greatest recorded offset not exceeding `offset` (the reference
point the claims use for column computation). -/
def greatestLE (lineOffsets : List Nat) (offset : Nat) : Nat :=
  match lineOffsets with
  | [] => 0
  | x :: rest =>
      if x ≤ offset then max x (greatestLE rest offset)
      else greatestLE rest offset

/-! ## Step-type resolution (`step` / `steps`, `src/parser.rs` lines
251-334, and `StepType::new_with_context`, `src/lib.rs` lines 243-254) -/

/-- The five surface keyword categories a step line can start with. -/
inductive StepKw where
  | given
  | wh
  | th
  | andKw
  | butKw
deriving DecidableEq, Repr

/-- One alternative of the `step` rule: a `Given`/`When`/`Then` surface
keyword yields its own `StepType` and updates `last_step`; `And`/`But`
yield the current `last_step` (unchanged) and fail when it is `none`.
Returns the resolved type together with the new `last_step` context. -/
def resolveStep (ctx : Option StepType) : StepKw → Option (StepType × Option StepType)
  | .given => some (.given, some .given)
  | .wh => some (.wh, some .wh)
  | .th => some (.th, some .th)
  | .andKw => ctx.map (fun v => (v, ctx))
  | .butKw => ctx.map (fun v => (v, ctx))

/-- The `steps` rule restricted to type resolution: fold `resolveStep`
over the surface keywords of the list (the `last_step` slot is `none`
when a list starts: it is cleared at the end of every previous list and
starts out empty). -/
def resolveSteps (ctx : Option StepType) : List StepKw → Option (List StepType)
  | [] => some []
  | k :: ks =>
      match resolveStep ctx k with
      | none => none
      | some (ty, ctx2) => (resolveSteps ctx2 ks).map (ty :: ·)

/-- The `last_step` context in force when the step at index `i` of the
list is parsed, starting from context `ctx`. -/
def ctxAt (ctx : Option StepType) (ks : List StepKw) (i : Nat) : Option StepType :=
  (ks.take i).foldl
    (fun s k =>
      match k with
      | .given => some .given
      | .wh => some .wh
      | .th => some .th
      | _ => s) ctx

/-! ## Docstrings: rule `docstring` (`src/parser.rs` lines 208-214).

The rule captures the raw text between the `"""` (or triple-backtick)
delimiters and returns `textwrap::dedent(n)` unchanged.  `dedent` below is
translated from the `textwrap` crate: find the leading whitespace of the
first line containing non-whitespace, shorten it by character-wise
comparison against every later such line, then rebuild — lines carrying
non-whitespace lose the prefix, whitespace-only lines become empty — and
finally drop the added trailing newline when the input did not end with
one.  (`char::is_whitespace` is modelled by `Char.isWhitespace`, which
agrees on every character the grammar can place inside a docstring.) -/

/-- Helper for `str::lines`: split at `'\n'`, stripping a `'\r'` that
immediately precedes it; `acc` is the current segment, reversed. -/
def rustLinesAux (acc : List Char) : List Char → List (List Char)
  | [] => [acc.reverse]
  | c :: rest =>
      if c = '\n' then
        (match acc with
         | '\r' :: acc0 => acc0.reverse
         | _ => acc.reverse) :: rustLinesAux [] rest
      else rustLinesAux (c :: acc) rest

/-- Model of `str::lines`: the final empty segment after a trailing newline (or of
an empty string) is not a line. -/
def rustLines (s : List Char) : List (List Char) :=
  let segs := rustLinesAux [] s
  if s.getLast? = some '\n' ∨ s = [] then segs.dropLast else segs

/-- Index of the first non-whitespace character, or the length when the
line is all whitespace (the `whitespace_idx` loop of `dedent`). -/
def firstNonWsIdx : List Char → Nat
  | [] => 0
  | c :: rest => if ¬ c.isWhitespace then 0 else firstNonWsIdx rest + 1

/-- First phase of `dedent`: scan for the first line with non-whitespace
content; its leading whitespace is the initial common prefix, and the
remaining lines are handed to the shortening phase. -/
def dedentInitPfx : List (List Char) → Option (List Char × List (List Char))
  | [] => none
  | line :: rest =>
      let wi := firstNonWsIdx line
      if wi < line.length then some (line.take wi, rest) else dedentInitPfx rest

/-- First index at which two character lists differ, `none` when one is a
prefix of the other (the zipped comparison loop of `dedent`). -/
def mismatchIdx : List Char → List Char → Option Nat
  | _, [] => none
  | [], _ => none
  | a :: la, b :: lb => if a ≠ b then some 0 else (mismatchIdx la lb).map (· + 1)

/-- Second phase of `dedent`: shorten the prefix against each remaining
line that has content beyond the matching part. -/
def dedentShorten (pfx : List Char) : List (List Char) → List Char
  | [] => pfx
  | line :: rest =>
      let wi := (mismatchIdx line pfx).getD line.length
      let pfx2 := if wi < line.length ∧ wi < pfx.length then line.take wi else pfx
      dedentShorten pfx2 rest

/-- Third phase of `dedent`: rebuild, dropping the prefix from lines that
both start with it and contain non-whitespace, and emitting an empty line
otherwise; every line gets a trailing newline. -/
def dedentRebuild (pfx : List Char) : List (List Char) → List Char
  | [] => []
  | line :: rest =>
      (if pfx.isPrefixOf line ∧ line.any (fun c => ¬ c.isWhitespace)
       then line.drop pfx.length else []) ++ '\n' :: dedentRebuild pfx rest

/-- Model of `textwrap::dedent`. -/
def dedent (s : List Char) : List Char :=
  let lines := rustLines s
  let pfx :=
    match dedentInitPfx lines with
    | none => []
    | some (p, rest) => dedentShorten p rest
  let result := dedentRebuild pfx lines
  if result.getLast? = some '\n' ∧ s.getLast? ≠ some '\n' then
    result.dropLast
  else result

/-- The action of rule `docstring` on the raw delimited contents:
`textwrap::dedent(n)` and nothing else. -/
def docstringValue (s : List Char) : List Char :=
  dedent s

/-- Modelled from the spec (for refinement comparison only; the words of
C8): the dedented contents with trailing whitespace and newlines trimmed
from the end of the result. -/
def docstringSpecValue (s : List Char) : List Char :=
  ((dedent s).reverse.dropWhile Char.isWhitespace).reverse

/-! ## The tag-expression grammar: rules `tag_in_expr_char`,
`tag_in_expr` and `tag_operation` (`src/parser.rs` lines 457-485 and
551-558).

`tag_operation` is a `precedence!` (Pratt) grammar with a single operator
level holding, in order, right-associative infix `and` (`x:@ _ "and" _
y:(@)`), right-associative infix `or`, and prefix `not` whose operand is
parsed at the same level (`"not" _ x:(@)`); below the `--` are the atoms:
a tag token or a parenthesised expression with trailing blanks.  The
escape flag lives in the environment, so its mutations persist when an
alternative fails and the input backtracks; the model threads the flag
through every outcome.  Fuel bounds the recursion; the entry point hands
each parse more fuel than it can consume. -/

/-- Type `TagOperation` from `src/tagexpr.rs`. -/
inductive TagOperation where
  | And (a b : TagOperation)
  | Or (a b : TagOperation)
  | Not (a : TagOperation)
  | Tag (s : String)
deriving DecidableEq, Repr

/-- The `tag_in_expr_char()+` loop: returns the decoded characters, the
number of successful iterations, the escape flag and the unconsumed rest.
A `\` outside an escape sets the flag and decodes to nothing; an escaped
`\`, `(`, `)` or space decodes to itself; any other escaped character
clears the flag and fails that iteration (its character is rolled back,
but the `\` stays consumed); unescaped characters fail on whitespace,
`@`, `(`, `)`. -/
def tagCharsAux (esc : Bool) : List Char → List Char × Nat × Bool × List Char
  | [] => ([], 0, esc, [])
  | c :: rest =>
      if ¬ esc ∧ c = '\\' then
        let (out, n, e, r) := tagCharsAux true rest
        (out, n + 1, e, r)
      else if esc then
        if c = '\\' ∨ c = '(' ∨ c = ')' ∨ c = ' ' then
          let (out, n, e, r) := tagCharsAux false rest
          (c :: out, n + 1, e, r)
        else ([], 0, false, c :: rest)
      else if ¬ c.isWhitespace ∧ c ≠ '@' ∧ c ≠ '(' ∧ c ≠ ')' ∧ c ≠ '\\' then
        let (out, n, e, r) := tagCharsAux esc rest
        (c :: out, n + 1, e, r)
      else ([], 0, esc, c :: rest)

/-- Rule `tag_in_expr`, after its leading `"@"` has matched: needs at
least one character iteration, and fails (clearing the flag) when the
escape flag survives to the end of the token. -/
def tagInExpr (esc : Bool) (s : List Char) :
    Bool × Option (List Char × List Char) :=
  let (out, n, e, r) := tagCharsAux esc s
  if n = 0 then (e, none)
  else if e then (false, none)
  else (e, some (out, r))

/-- Rule `_`: zero or more blanks. -/
def skipWs (s : List Char) : List Char :=
  s.dropWhile (fun c => c = ' ' ∨ c = '\t')

/-- Literal match, consuming the literal on success. -/
def matchLit (lit s : List Char) : Option (List Char) :=
  if lit.isPrefixOf s then some (s.drop lit.length) else none

mutual

/-- The atom level of `tag_operation`: `t:tag_in_expr()` first, then
`"(" t:tag_operation() ")" _`. -/
def parseAtom (fuel : Nat) (esc : Bool) (s : List Char) :
    Bool × Option (TagOperation × List Char) :=
  match fuel with
  | 0 => (esc, none)
  | fuel + 1 =>
      match s with
      | '@' :: rest =>
          match tagInExpr esc rest with
          | (e, some (out, r)) => (e, some (.Tag (String.mk out), r))
          | (e, none) => parseParen fuel e s
      | _ => parseParen fuel esc s

/-- The parenthesised atom `"(" t:tag_operation() ")" _`. -/
def parseParen (fuel : Nat) (esc : Bool) (s : List Char) :
    Bool × Option (TagOperation × List Char) :=
  match fuel with
  | 0 => (esc, none)
  | fuel + 1 =>
      match s with
      | '(' :: rest =>
          match parseOp fuel esc rest with
          | (e, some (t, ')' :: r2)) => (e, some (t, skipWs r2))
          | (e, _) => (e, none)
      | _ => (esc, none)

/-- The operator level: try the prefix alternative `"not" _ x:(@)` (its
operand parsed at the same level), fall back to an atom, then run the
infix loop on the head expression. -/
def parseOp (fuel : Nat) (esc : Bool) (s : List Char) :
    Bool × Option (TagOperation × List Char) :=
  match fuel with
  | 0 => (esc, none)
  | fuel + 1 =>
      let head :=
        match matchLit ['n', 'o', 't'] s with
        | some r =>
            match parseOp fuel esc (skipWs r) with
            | (e, some (x, r2)) => (e, some (TagOperation.Not x, r2))
            | (e, none) => parseAtom fuel e s
        | none => parseAtom fuel esc s
      match head with
      | (e, some (lhs, r)) => infixLoop fuel e lhs r
      | other => other

/-- The infix loop: `x:@ _ "and" _ y:(@)` then `x:@ _ "or" _ y:(@)`, both
with the right operand parsed at the same level (right-associative); when
neither matches the current expression is complete. -/
def infixLoop (fuel : Nat) (esc : Bool) (lhs : TagOperation) (s : List Char) :
    Bool × Option (TagOperation × List Char) :=
  match fuel with
  | 0 => (esc, some (lhs, s))
  | fuel + 1 =>
      match matchLit ['a', 'n', 'd'] (skipWs s) with
      | some r =>
          match parseOp fuel esc (skipWs r) with
          | (e, some (rhs, r2)) => infixLoop fuel e (.And lhs rhs) r2
          | (e, none) => infixOr fuel e lhs s
      | none => infixOr fuel esc lhs s

/-- The `or` alternative of the infix loop. -/
def infixOr (fuel : Nat) (esc : Bool) (lhs : TagOperation) (s : List Char) :
    Bool × Option (TagOperation × List Char) :=
  match fuel with
  | 0 => (esc, some (lhs, s))
  | fuel + 1 =>
      match matchLit ['o', 'r'] (skipWs s) with
      | some r =>
          match parseOp fuel esc (skipWs r) with
          | (e, some (rhs, r2)) => infixLoop fuel e (.Or lhs rhs) r2
          | (e, none) => (e, some (lhs, s))
      | none => (esc, some (lhs, s))

end

/-- The generated entry point for `pub(crate) rule tag_operation`: the
expression must consume the entire input. -/
def parseTagExpr (s : String) : Option TagOperation :=
  match parseOp (s.data.length * 4 + 8) false s.data with
  | (_, some (t, [])) => some t
  | _ => none

/-! ## Helper lemmas -/

lemma foldr_max_le_mem {l : List Nat} {b : Nat} (hb : b ∈ l) (a : Nat) :
    b ≤ l.foldr max a := by
  induction l with
  | nil => cases hb
  | cons x xs ih =>
      rcases List.mem_cons.mp hb with h | h
      · subst h; exact Nat.le_max_left _ _
      · exact le_trans (ih h) (Nat.le_max_right _ _)

lemma foldr_min_le_mem {l : List Nat} {b : Nat} (hb : b ∈ l) (a : Nat) :
    l.foldr min a ≤ b := by
  induction l with
  | nil => cases hb
  | cons x xs ih =>
      rcases List.mem_cons.mp hb with h | h
      · subst h; exact Nat.min_le_left _ _
      · exact le_trans (Nat.min_le_right _ _) (ih h)

lemma mem_le_maxKwLen {list : List (List Char)} {x : List Char}
    (hx : x ∈ list) : x.length ≤ maxKwLen list :=
  foldr_max_le_mem (List.mem_map.mpr ⟨x, hx, rfl⟩) 0

lemma minKwLen_le_mem {list : List (List Char)} {x : List Char}
    (hx : x ∈ list) : minKwLen list ≤ x.length :=
  foldr_min_le_mem (List.mem_map.mpr ⟨x, hx, rfl⟩) _

lemma isPrefixOf_take_eq {x input : List Char} {m : Nat}
    (hx : x.length ≤ m) :
    x.isPrefixOf (input.take m) = x.isPrefixOf input := by
  by_cases h : x <+: input
  · have h1 : x.isPrefixOf input = true := List.isPrefixOf_iff_prefix.mpr h
    have h2 : x.isPrefixOf (input.take m) = true :=
      List.isPrefixOf_iff_prefix.mpr (List.prefix_take_iff.mpr ⟨h, hx⟩)
    rw [h1, h2]
  · have h1 : x.isPrefixOf input = false := by
      rw [Bool.eq_false_iff]
      intro hc
      exact h (List.isPrefixOf_iff_prefix.mp hc)
    have h2 : x.isPrefixOf (input.take m) = false := by
      rw [Bool.eq_false_iff]
      intro hc
      exact h ((List.isPrefixOf_iff_prefix.mp hc).trans (List.take_prefix m input))
    rw [h1, h2]

lemma find?_congr_on {α : Type} {p q : α → Bool} {l : List α}
    (h : ∀ x ∈ l, p x = q x) : l.find? p = l.find? q := by
  induction l with
  | nil => rfl
  | cons x xs ih =>
      have hx := h x (List.mem_cons_self x xs)
      by_cases hp : p x = true
      · rw [List.find?_cons_of_pos _ hp, List.find?_cons_of_pos _ (hx ▸ hp)]
      · have hp' : p x = false := Bool.eq_false_iff.mpr hp
        rw [List.find?_cons_of_neg _ (by simp [hp']),
          List.find?_cons_of_neg _ (by simp [← hx, hp'])]
        exact ih fun y hy => h y (List.mem_cons_of_mem x hy)

/-! The claims are settled by the theorems below; each theorem carries
the claim id in its doc comment. -/

/-- C1 counterexample.  A document whose second table row is longer than
the first does not fail with `InconsistentCellCount`: the parse succeeds
and the surplus cell `"2"` is silently dropped, refuting the claim that
any divergence of row lengths is a fatal error. -/
theorem c1_counterexample :
    table 0 0 ⟨1, 1⟩ [["a"], ["1", "2"]] =
      .ok ⟨[["a"], ["1"]], ⟨0, 0⟩, ⟨1, 1⟩⟩ ∧
    (["1", "2"] : List String).length ≠ (["a"] : List String).length := by
  constructor
  · rfl
  · decide

/-- C1 (amended).  On success every row of the built table has the length
of the first parsed row; a fatal `InconsistentCellCount` error is raised
exactly when some later row is shorter than the first (rows longer than
the first are silently truncated by `table0` and do not fail). -/
theorem c1_table_rows (pa pb : Nat) (pos : LineCol) (d0 : List String)
    (drest : List (List String)) :
    (∀ t, table pa pb pos (d0 :: drest) = .ok t →
        ∀ r ∈ t.rows, r.length = d0.length) ∧
    ((∃ e, table pa pb pos (d0 :: drest) = .error e) ↔
        ∃ r ∈ drest, r.length < d0.length) ∧
    (∀ e, table pa pb pos (d0 :: drest) = .error e →
        e = .inconsistentCellCount (table0 (d0 :: drest))) := by
  have htable : table pa pb pos (d0 :: drest) =
      if (drest.map fun r => r.take d0.length).any
          (fun x => x.length ≠ (d0.take d0.length).length) then
        .error (.inconsistentCellCount (table0 (d0 :: drest)))
      else .ok ⟨table0 (d0 :: drest), ⟨pa, pb⟩, pos⟩ := rfl
  have hcond : ((drest.map fun r => r.take d0.length).any
      (fun x => x.length ≠ (d0.take d0.length).length) = true) ↔
      ∃ r ∈ drest, r.length < d0.length := by
    rw [List.any_map, List.any_eq_true]
    constructor
    · rintro ⟨r, hr, hp⟩
      refine ⟨r, hr, ?_⟩
      simp only [Function.comp, List.length_take, List.take_length,
        decide_eq_true_eq] at hp
      omega
    · rintro ⟨r, hr, hlt⟩
      refine ⟨r, hr, ?_⟩
      simp only [Function.comp, List.length_take, List.take_length,
        decide_eq_true_eq]
      omega
  refine ⟨?_, ?_, ?_⟩
  · intro t ht r hr
    rw [htable] at ht
    by_cases hc : (drest.map fun r => r.take d0.length).any
        (fun x => x.length ≠ (d0.take d0.length).length) = true
    · rw [if_pos hc] at ht
      cases ht
    · rw [if_neg hc] at ht
      cases ht
      simp only [table0, List.map_cons] at hr
      rcases List.mem_cons.mp hr with h | h
      · subst h; simp [List.take_length]
      · rcases List.mem_map.mp h with ⟨x, hxmem, hxeq⟩
        have hall := List.any_eq_false.mp (Bool.eq_false_iff.mpr hc)
        have hx := hall _ (List.mem_map.mpr ⟨x, hxmem, rfl⟩)
        simp only [List.length_take, List.take_length,
          decide_eq_true_eq, not_not] at hx
        rw [← hxeq]
        simpa [List.length_take] using hx
  · rw [htable]
    by_cases hc : (drest.map fun r => r.take d0.length).any
        (fun x => x.length ≠ (d0.take d0.length).length) = true
    · simp only [if_pos hc]
      simp [hcond.mp hc]
    · simp only [if_neg hc]
      constructor
      · rintro ⟨e, he⟩; cases he
      · intro hex
        exact absurd (hcond.mpr hex) (by simpa using hc)
  · intro e he
    rw [htable] at he
    by_cases hc : (drest.map fun r => r.take d0.length).any
        (fun x => x.length ≠ (d0.take d0.length).length) = true
    · rw [if_pos hc] at he
      cases he; rfl
    · rw [if_neg hc] at he
      cases he

/-- C1 witness: at the concrete rows `[["a", "b"], ["1"]]` the amended
theorem yields the fatal `InconsistentCellCount` outcome. -/
theorem c1_witness :
    ∃ e, table 0 0 ⟨1, 1⟩ [["a", "b"], ["1"]] = .error e :=
  (c1_table_rows 0 0 ⟨1, 1⟩ ["a", "b"] [["1"]]).2.1.mpr
    ⟨["1"], by decide, by decide⟩

/-- C4 counterexample.  With candidate list `["a", "ab"]` and input
`"abc"`, both candidates are prefixes of the input and `"ab"` is the
longer one, yet the matched keyword is `"a"` — list order wins outright,
refuting the longest-match rule. -/
theorem c4_counterexample :
    keywordMatch [['a'], ['a', 'b']] ['a', 'b', 'c'] = some ['a'] ∧
    (['a', 'b'] : List Char).isPrefixOf ['a', 'b', 'c'] = true ∧
    (['a'] : List Char).length < (['a', 'b'] : List Char).length := by
  refine ⟨rfl, by decide, by decide⟩

/-- C4 (amended).  For every non-empty candidate list, keyword matching
succeeds exactly when some candidate is a prefix of the input, and the
matched keyword is the first candidate in list order that is a prefix of
the input — candidate length plays no role in the choice. -/
theorem c4_keyword_first_match (list : List (List Char)) (input : List Char)
    (_hne : list ≠ []) :
    keywordMatch list input = list.find? (fun x => x.isPrefixOf input) ∧
    ((keywordMatch list input).isSome = true ↔
      ∃ x ∈ list, x.isPrefixOf input = true) := by
  have hmain : keywordMatch list input =
      list.find? (fun x => x.isPrefixOf input) := by
    unfold keywordMatch
    by_cases hshort : input.length < minKwLen list
    · rw [if_pos hshort]
      symm
      rw [List.find?_eq_none]
      intro x hx hpre
      have h1 : x.length ≤ input.length :=
        (List.isPrefixOf_iff_prefix.mp hpre).length_le
      have h2 := minKwLen_le_mem hx
      omega
    · rw [if_neg hshort]
      exact find?_congr_on fun x hx => isPrefixOf_take_eq (mem_le_maxKwLen hx)
  refine ⟨hmain, ?_⟩
  rw [hmain]
  exact List.find?_isSome

/-- C4 witness: on the list `["Given"]` and input `"Given a step"`, the
amended theorem reports a successful match. -/
theorem c4_witness :
    (keywordMatch ["Given".data] "Given a step".data).isSome = true :=
  (c4_keyword_first_match ["Given".data] "Given a step".data
    (by decide)).2.mpr ⟨"Given".data, by decide, by decide⟩

/-- Step resolution, generalized over the initial context: on success the
resolved types follow the surface categories, with `And`/`But` taking the
context in force at their index. -/
lemma resolveSteps_spec (ctx : Option StepType) (ks : List StepKw)
    (tys : List StepType) (h : resolveSteps ctx ks = some tys) :
    tys.length = ks.length ∧
    ∀ i : Nat,
      (ks[i]? = some .given → tys[i]? = some .given) ∧
      (ks[i]? = some .wh → tys[i]? = some .wh) ∧
      (ks[i]? = some .th → tys[i]? = some .th) ∧
      ((ks[i]? = some .andKw ∨ ks[i]? = some .butKw) →
        ∃ v, ctxAt ctx ks i = some v ∧ tys[i]? = some v) := by
  induction ks generalizing ctx tys with
  | nil =>
      simp only [resolveSteps] at h
      cases h
      refine ⟨rfl, fun i => ?_⟩
      simp
  | cons k ks ih =>
      simp only [resolveSteps] at h
      rcases hstep : resolveStep ctx k with _ | ⟨ty, ctx2⟩
      · rw [hstep] at h; cases h
      · rw [hstep] at h
        have h2 : (resolveSteps ctx2 ks).map (ty :: ·) = some tys := h
        rcases hrest : resolveSteps ctx2 ks with _ | tys'
        · rw [hrest] at h2; cases h2
        · rw [hrest] at h2
          simp only [Option.map_some'] at h2
          cases h2
          obtain ⟨hlen, hspec⟩ := ih ctx2 tys' hrest
          have hupd : ctxAt ctx (k :: ks) 0 = ctx := rfl
          have hshift : ∀ j : Nat, ctxAt ctx (k :: ks) (j + 1) = ctxAt ctx2 ks j := by
            intro j
            have hf : (fun (s : Option StepType) (kw : StepKw) =>
                match kw with
                | .given => some StepType.given
                | .wh => some StepType.wh
                | .th => some StepType.th
                | _ => s) ctx k = ctx2 := by
              cases k <;> simp only [resolveStep] at hstep <;>
                first
                  | (cases hstep; rfl)
                  | (rcases ctx with _ | v
                     · cases hstep
                     · simp only [Option.map_some'] at hstep
                       cases hstep
                       rfl)
            simp only [ctxAt, List.take_succ_cons, List.foldl_cons, hf]
          refine ⟨by simp [hlen], fun i => ?_⟩
          cases i with
          | zero =>
              have h0k : (k :: ks)[0]? = some k := List.getElem?_cons_zero
              have h0t : ((ty :: tys')[0]? : Option StepType) = some ty := List.getElem?_cons_zero
              refine ⟨?_, ?_, ?_, ?_⟩
              · intro hk
                rw [h0k] at hk
                cases hk
                simp only [resolveStep] at hstep
                cases hstep
                exact h0t
              · intro hk
                rw [h0k] at hk
                cases hk
                simp only [resolveStep] at hstep
                cases hstep
                exact h0t
              · intro hk
                rw [h0k] at hk
                cases hk
                simp only [resolveStep] at hstep
                cases hstep
                exact h0t
              · intro hk
                have hctx : ctx = some ty := by
                  rcases hk with hk | hk <;> rw [h0k] at hk <;> cases hk <;>
                    · simp only [resolveStep] at hstep
                      rcases ctx with _ | v
                      · cases hstep
                      · simp only [Option.map_some'] at hstep
                        cases hstep
                        rfl
                exact ⟨ty, by rw [hupd, hctx], h0t⟩
          | succ j =>
              have hsk : (k :: ks)[j + 1]? = ks[j]? := List.getElem?_cons_succ
              have hst : ((ty :: tys')[j + 1]? : Option StepType) = tys'[j]? := List.getElem?_cons_succ
              rw [hsk, hst, hshift j]
              exact hspec j

/-- C2.  In every step list that parses, a surface `Given`/`When`/`Then`
keyword resolves to its own `StepType` regardless of prior context; a
surface `And`/`But` resolves to the context in force at its index — the
type of the nearest preceding `Given`/`When`/`Then` in the same list
(tracked by `ctxAt`, which only `Given`/`When`/`Then` update); and a list
whose first step is `And`/`But` fails to parse, because `resolveStep`
returns `none` on an empty context. -/
theorem c2_step_types (ks : List StepKw) :
    (∀ tys, resolveSteps none ks = some tys →
      tys.length = ks.length ∧
      ∀ i : Nat,
        (ks[i]? = some .given → tys[i]? = some .given) ∧
        (ks[i]? = some .wh → tys[i]? = some .wh) ∧
        (ks[i]? = some .th → tys[i]? = some .th) ∧
        ((ks[i]? = some .andKw ∨ ks[i]? = some .butKw) →
          ∃ v, ctxAt none ks i = some v ∧ tys[i]? = some v)) ∧
    (∀ k rest, ks = k :: rest → (k = .andKw ∨ k = .butKw) →
      resolveSteps none ks = none) := by
  constructor
  · intro tys h
    exact resolveSteps_spec none ks tys h
  · rintro k rest rfl hk
    rcases hk with rfl | rfl <;> rfl

/-- C2 witness: the list `[Given, And]` resolves with the `And` step
taking the `Given` context, and a leading `And` fails. -/
theorem c2_witness :
    (∃ v, ctxAt none [StepKw.given, StepKw.andKw] 1 = some v ∧
      ([StepType.given, StepType.given][1]? : Option StepType) = some v) ∧
    resolveSteps none [StepKw.andKw] = none := by
  constructor
  · exact (((c2_step_types [StepKw.given, StepKw.andKw]).1
      [StepType.given, StepType.given] rfl).2 1).2.2.2 (Or.inl rfl)
  · exact (c2_step_types [StepKw.andKw]).2 StepKw.andKw [] rfl (Or.inl rfl)

/-- Recorded fatal errors are kept by every environment operation
(`set_fatal_error` keeps the first error). -/
lemma applyOp_fatal {env : Env} {e : EnvError} (op : EnvOp)
    (h : env.fatalError = some e) :
    (env.applyOp op).fatalError = some e := by
  cases op <;>
    simp [Env.applyOp, Env.setFatalError, Env.setLanguage, Env.setLastError,
      Env.incrementNl, h] <;>
    split <;> simp [Env.setFatalError, h]

/-- Fatal errors survive arbitrary sequences of environment operations. -/
lemma applyOps_fatal {env : Env} {e : EnvError} (ops : List EnvOp)
    (h : env.fatalError = some e) :
    (env.applyOps ops).fatalError = some e := by
  induction ops generalizing env with
  | nil => exact h
  | cons op ops ih => exact ih (applyOp_fatal op h)

/-- C5.  Once a fatal environment error has been recorded, it persists
through any further environment operations and the final gate of the
top-level `feature` rule rejects the otherwise assembled feature value:
the parse returns a failure. -/
theorem c5_fatal_error_fails_parse (env : Env) (e : EnvError)
    (ops : List EnvOp) {F : Type} (f : F)
    (h : env.fatalError = some e) :
    (env.applyOps ops).fatalError = some e ∧
    featureGate (env.applyOps ops) f = .error "fatal error" := by
  have hf := applyOps_fatal ops h
  refine ⟨hf, ?_⟩
  simp [featureGate, Env.assertNoError, hf]

/-- C5 witness: a freshly recorded `InconsistentCellCount` fatal error
survives a newline recording and fails the gate at a concrete value. -/
theorem c5_witness :
    ((Env.default.setFatalError
        (.inconsistentCellCount [])).applyOps [.incrementNl 4]).fatalError =
      some (.inconsistentCellCount []) ∧
    featureGate ((Env.default.setFatalError
        (.inconsistentCellCount [])).applyOps [.incrementNl 4]) (0 : Nat) =
      .error "fatal error" :=
  c5_fatal_error_fails_parse _ _ [.incrementNl 4] 0 rfl

/-- C6.  A language directive naming a code with no keyword table makes
`set_language` record the fatal `UnsupportedLanguage` error carrying that
code and return a failure that aborts the directive rule; the error then
persists through the rest of the parse, so the top-level gate rejects the
document.  In particular the `fr` directive of the claim fails with
`UnsupportedLanguage("fr")`. -/
theorem c6_unsupported_language :
    (Env.default.setLanguage "fr").2 = .error "Unsupported language" ∧
    (Env.default.setLanguage "fr").1.fatalError =
      some (.unsupportedLanguage "fr") ∧
    ∀ (ops : List EnvOp) (F : Type) (f : F),
      featureGate ((Env.default.setLanguage "fr").1.applyOps ops) f =
        .error "fatal error" := by
  refine ⟨rfl, rfl, ?_⟩
  intro ops F f
  have hf := applyOps_fatal ops
    (show ((Env.default.setLanguage "fr").1).fatalError =
      some (.unsupportedLanguage "fr") from rfl)
  simp [featureGate, Env.assertNoError, hf]

/-- C3 counterexample.  The input of the claim parses to
`Not(And(Or(Tag a, Tag b), Or(Tag c, Not(Tag d))))`: the prefix `not`
takes the whole remaining expression as its operand, so the result is not
the claimed `And(Not(Or(a,b)), Or(c, Not d))`. -/
theorem c3_counterexample :
    parseTagExpr "not (@a or @b) and (@c or not @d)" =
      some (.Not (.And (.Or (.Tag "a") (.Tag "b"))
        (.Or (.Tag "c") (.Not (.Tag "d"))))) ∧
    TagOperation.Not (.And (.Or (.Tag "a") (.Tag "b"))
        (.Or (.Tag "c") (.Not (.Tag "d")))) ≠
      TagOperation.And (.Not (.Or (.Tag "a") (.Tag "b")))
        (.Or (.Tag "c") (.Not (.Tag "d"))) := by
  exact ⟨by decide, by decide⟩

/-- C3 (amended).  The `tag_operation` grammar has a single operator
precedence level: binary `and` and `or` bind equally and associate to the
right, and prefix `not` parses its operand at that same level, so it
extends over the rest of the expression; parenthesised and atomic tags
bind tightest.  Hence the claimed input yields
`Not(And(Or(a,b), Or(c, Not d)))`, `@a and @b and @c` associates right,
and `or`/`and` mixtures nest by textual order rather than precedence. -/
theorem c3_tagexpr_shape :
    parseTagExpr "not (@a or @b) and (@c or not @d)" =
      some (.Not (.And (.Or (.Tag "a") (.Tag "b"))
        (.Or (.Tag "c") (.Not (.Tag "d"))))) ∧
    parseTagExpr "@a and @b and @c" =
      some (.And (.Tag "a") (.And (.Tag "b") (.Tag "c"))) ∧
    parseTagExpr "@a or @b and @c" =
      some (.Or (.Tag "a") (.And (.Tag "b") (.Tag "c"))) ∧
    parseTagExpr "@a and @b or @c" =
      some (.And (.Tag "a") (.Or (.Tag "b") (.Tag "c"))) ∧
    parseTagExpr "not @a and @b" =
      some (.Not (.And (.Tag "a") (.Tag "b"))) := by
  refine ⟨by decide, by decide, by decide, by decide, by decide⟩

/-- C9 counterexample.  Escaping a character outside `\`, `(`, `)` and
space is not always a parse error: in `@b\and @c` the illegal escape
`\a` merely ends the tag token after `b` (consuming the backslash), and
the remaining text continues the expression, which parses successfully to
`And(Tag "b", Tag "c")`. -/
theorem c9_counterexample :
    parseTagExpr "@b\\and @c" = some (.And (.Tag "b") (.Tag "c")) ∧
    (parseTagExpr "@b\\and @c").isSome = true := by
  exact ⟨by decide, by decide⟩

/-- C9 (amended).  A backslash escapes exactly `\`, `(`, `)` and space,
and the backslash itself is not part of the tag value (`@bar\)` gives
`Tag "bar)"`, `@a\ b` gives `Tag "a b"`, `@a\\b` gives a tag with a
literal backslash); a dangling escape fails the tag token (`@bar\` is a
parse error); an illegally escaped character ends the tag token before
the backslash, which is a parse error when the leftover text cannot
continue the expression (`@b\x`) but not otherwise (`@b\and @c`). -/
theorem c9_tag_escapes :
    parseTagExpr "@bar\\)" = some (.Tag "bar)") ∧
    parseTagExpr "@a\\ b" = some (.Tag "a b") ∧
    parseTagExpr "@a\\\\b" = some (.Tag "a\\b") ∧
    parseTagExpr "@bar\\" = none ∧
    parseTagExpr "@b\\x" = none ∧
    parseTagExpr "@b\\and @c" = some (.And (.Tag "b") (.Tag "c")) := by
  refine ⟨by decide, by decide, by decide, by decide, by decide, by decide⟩

/-- C8 counterexample.  For delimited contents consisting of a newline,
an indented line and the closing-delimiter indentation, the docstring
value is exactly `textwrap::dedent` of the contents and keeps its
trailing newline, differing from the claimed value in which trailing
whitespace and newlines are trimmed. -/
theorem c8_counterexample :
    docstringValue "\n  a\n  ".data = "\na\n".data ∧
    docstringValue "\n  a\n  ".data ≠ docstringSpecValue "\n  a\n  ".data := by
  exact ⟨by decide, by decide⟩

/-- Appending a newline-terminated segment in front of a list that is
empty or ends with a newline yields a list ending with a newline. -/
lemma append_nl_getLast (seg L : List Char)
    (h : L.getLast? = some '\n' ∨ L = []) :
    (seg ++ '\n' :: L).getLast? = some '\n' := by
  rw [show seg ++ '\n' :: L = (seg ++ ['\n']) ++ L by simp, List.getLast?_append]
  rcases h with h | h
  · rw [h]; rfl
  · subst h
    simp [List.getLast?_append]

/-- Rebuilding after dedent terminates every line with a newline, so the
result of `dedentRebuild` on a non-empty line list ends with one. -/
lemma dedentRebuild_getLast (pfx : List Char) (line : List Char)
    (rest : List (List Char)) :
    (dedentRebuild pfx (line :: rest)).getLast? = some '\n' := by
  induction rest generalizing line with
  | nil => exact append_nl_getLast _ _ (Or.inr rfl)
  | cons line2 rest ih => exact append_nl_getLast _ _ (Or.inl (ih line2))

/-- The segment list produced by the line splitter has one segment more
than the number of newlines. -/
lemma rustLinesAux_length (s : List Char) :
    ∀ acc, (rustLinesAux acc s).length = s.count '\n' + 1 := by
  induction s with
  | nil => intro acc; simp [rustLinesAux]
  | cons c rest ih =>
      intro acc
      by_cases hc : c = '\n'
      · subst hc
        simp [rustLinesAux, ih, List.count_cons]
      · simp [rustLinesAux, hc, ih, List.count_cons]

/-- C8 (amended).  The docstring value is `textwrap::dedent` of the raw
delimited contents and nothing more: the longest common leading
whitespace of the lines carrying non-whitespace is stripped from those
lines, whitespace-only lines become empty, and no trailing trimming
happens — whenever the contents end with a newline, so does the value.
The concrete cases show the preserved leading and trailing newline and
the common-prefix stripping. -/
theorem c8_docstring_dedent_only :
    (∀ s : List Char, s.getLast? = some '\n' →
      (docstringValue s).getLast? = some '\n') ∧
    docstringValue "\n  a\n  ".data = "\na\n".data ∧
    docstringValue "\n    a\n  b\n  ".data = "\n  a\nb\n".data ∧
    docstringValue "\n  a\n  b\n  ".data = "\na\nb\n".data := by
  refine ⟨?_, by decide, by decide, by decide⟩
  intro s hs
  have hne : s ≠ [] := by
    intro h
    rw [h] at hs
    cases hs
  have hlines : rustLines s ≠ [] := by
    unfold rustLines
    rw [if_pos (Or.inl hs)]
    have hlen := rustLinesAux_length s []
    have hmem : '\n' ∈ s := List.mem_of_getLast?_eq_some hs
    have hcount : 1 ≤ s.count '\n' := List.count_pos_iff.mpr hmem
    intro hcontra
    have := congrArg List.length hcontra
    rw [List.length_dropLast, hlen] at this
    simp at this
    omega
  unfold docstringValue dedent
  rcases hl : rustLines s with _ | ⟨line, rest⟩
  · exact absurd hl hlines
  · have hlast := dedentRebuild_getLast
      (match dedentInitPfx (line :: rest) with
        | none => []
        | some (p, r) => dedentShorten p r) line rest
    rw [if_neg]
    · exact hlast
    · rintro ⟨-, hcontra⟩
      exact hcontra hs

/-- C8 witness: contents ending in a newline keep it, seen at a concrete
input. -/
theorem c8_witness :
    (docstringValue "ab\n".data).getLast? = some '\n' :=
  c8_docstring_dedent_only.1 "ab\n".data (by decide)

/-! ## Position translator lemmas (claims C7 and C10). -/

/-- Every offset recorded while scanning from index `i` exceeds `i`. -/
lemma nlOffsetsFrom_gt (s : List Char) :
    ∀ i, ∀ x ∈ nlOffsetsFrom s i, i < x := by
  induction s with
  | nil => intro i x hx; simp [nlOffsetsFrom] at hx
  | cons c rest ih =>
      intro i x hx
      simp only [nlOffsetsFrom] at hx
      by_cases hc : c = '\n'
      · rw [if_pos hc] at hx
        rcases List.mem_cons.mp hx with h | h
        · omega
        · have := ih (i + 1) x h
          omega
      · rw [if_neg hc] at hx
        have := ih (i + 1) x hx
        omega

/-- The recorded newline offsets are strictly increasing. -/
lemma nlOffsetsFrom_pairwise (s : List Char) :
    ∀ i, (nlOffsetsFrom s i).Pairwise (· < ·) := by
  induction s with
  | nil => intro i; simp [nlOffsetsFrom]
  | cons c rest ih =>
      intro i
      simp only [nlOffsetsFrom]
      by_cases hc : c = '\n'
      · rw [if_pos hc]
        exact List.Pairwise.cons (fun x hx => nlOffsetsFrom_gt rest (i + 1) x hx)
          (ih (i + 1))
      · rw [if_neg hc]
        exact ih (i + 1)

/-- The full line-offset list of a source is strictly increasing. -/
lemma lineOffsetsOf_pairwise (s : List Char) :
    (lineOffsetsOf s).Pairwise (· < ·) :=
  List.Pairwise.cons
    (fun x hx => Nat.lt_of_lt_of_le (Nat.zero_lt_one)
      (nlOffsetsFrom_gt s 0 x hx))
    (nlOffsetsFrom_pairwise s 0)

/-- Recorded offsets at most `o` correspond exactly to the newlines of
the consumed prefix of length `o - i`. -/
lemma countP_nlOffsets (s : List Char) :
    ∀ i o, (nlOffsetsFrom s i).countP (fun x => x ≤ o) =
      (s.take (o - i)).count '\n' := by
  induction s with
  | nil => intro i o; simp [nlOffsetsFrom]
  | cons c rest ih =>
      intro i o
      by_cases hio : o ≤ i
      · have htake : o - i = 0 := by omega
        rw [htake]
        simp only [List.take_zero, List.count_nil]
        simp only [nlOffsetsFrom]
        have hzero : (nlOffsetsFrom rest (i + 1)).countP (fun x => x ≤ o) = 0 := by
          rw [List.countP_eq_zero]
          intro a ha
          have := nlOffsetsFrom_gt rest (i + 1) a ha
          simp only [decide_eq_true_eq]
          omega
        by_cases hc : c = '\n'
        · rw [if_pos hc, List.countP_cons, hzero]
          simp only [decide_eq_true_eq]
          rw [if_neg (by omega)]
        · rw [if_neg hc, hzero]
      · have hlt : i < o := by omega
        obtain ⟨k, hk⟩ : ∃ k, o - i = k + 1 := ⟨o - i - 1, by omega⟩
        have hk2 : o - (i + 1) = k := by omega
        rw [hk, List.take_succ_cons, List.count_cons]
        simp only [nlOffsetsFrom]
        by_cases hc : c = '\n'
        · rw [if_pos hc, List.countP_cons, ih (i + 1) o, hk2]
          simp only [decide_eq_true_eq]
          rw [if_pos (by omega), if_pos (by simp [hc])]
        · rw [if_neg hc, ih (i + 1) o, hk2, if_neg (by simp [hc])]
          omega

/-- For a strictly increasing list, the `position` scan index — the first
index whose offset exceeds `o`, defaulting to the length — counts the
recorded offsets not exceeding `o` (shifted by the start index of the
scan). -/
lemma findIdx?_getD_sorted (o : Nat) :
    ∀ (L : List Nat) (i : Nat), L.Pairwise (· < ·) →
      (L.findIdx? (fun x => o < x) i).getD (i + L.length) =
        i + L.countP (fun x => x ≤ o) := by
  intro L
  induction L with
  | nil => intro i _; simp
  | cons x xs ih =>
      intro i hp
      have hx := List.Pairwise.of_cons hp
      have hhead : ∀ y ∈ xs, x < y := fun y hy =>
        List.rel_of_pairwise_cons hp hy
      rw [List.findIdx?_cons]
      by_cases hox : o < x
      · rw [if_pos (by simpa using hox)]
        have hcount : (x :: xs).countP (fun y => y ≤ o) = 0 := by
          rw [List.countP_eq_zero]
          intro a ha
          simp only [decide_eq_true_eq]
          rcases List.mem_cons.mp ha with h | h
          · omega
          · have := hhead a h
            omega
        rw [hcount]
        rfl
      · rw [if_neg (by simpa using hox)]
        have := ih (i + 1) hx
        rw [List.countP_cons]
        simp only [decide_eq_true_eq]
        rw [if_pos (by omega)]
        have hlen : i + (x :: xs).length = (i + 1) + xs.length := by
          simp
          omega
        rw [hlen, this]
        omega

/-- A list at most `o` everywhere has greatest-not-exceeding value `0`
only in the degenerate sense used by the fold: with no element at most
`o`, the fold returns the default `0`. -/
lemma greatestLE_of_none {L : List Nat} {o : Nat}
    (h : ∀ x ∈ L, ¬ x ≤ o) : greatestLE L o = 0 := by
  induction L with
  | nil => rfl
  | cons x xs ih =>
      simp only [greatestLE]
      rw [if_neg (h x (List.mem_cons_self x xs))]
      exact ih fun y hy => h y (List.mem_cons_of_mem x hy)

/-- The fold is bounded below by any head that qualifies. -/
lemma greatestLE_cons_ge (x : Nat) (xs : List Nat) (o : Nat) (hx : x ≤ o) :
    x ≤ greatestLE (x :: xs) o := by
  simp only [greatestLE]
  rw [if_pos hx]
  exact Nat.le_max_left _ _

/-- For a strictly increasing list headed by an element not exceeding
`o`, the entry just before the `position` scan index is the greatest
recorded offset not exceeding `o`, and it does not exceed `o`. -/
lemma getD_countP_sorted (o : Nat) :
    ∀ (xs : List Nat) (x : Nat), (x :: xs).Pairwise (· < ·) → x ≤ o →
      (x :: xs).getD ((x :: xs).countP (fun y => y ≤ o) - 1) 0 =
        greatestLE (x :: xs) o ∧
      greatestLE (x :: xs) o ≤ o ∧
      1 ≤ (x :: xs).countP (fun y => y ≤ o) := by
  intro xs
  induction xs with
  | nil =>
      intro x _ hx
      refine ⟨?_, ?_, ?_⟩
      · simp [List.countP_cons, greatestLE, hx]
      · simp only [greatestLE, if_pos hx]
        omega
      · simp [List.countP_cons, hx]
  | cons y xs ih =>
      intro x hp hx
      have hxs := List.Pairwise.of_cons hp
      have hhead : ∀ z ∈ y :: xs, x < z := fun z hz =>
        List.rel_of_pairwise_cons hp hz
      have hxy : x < y := hhead y (List.mem_cons_self y xs)
      by_cases hy : y ≤ o
      · obtain ⟨hget, hle, hpos⟩ := ih y hxs hy
        have hcount : (x :: y :: xs).countP (fun z => z ≤ o) =
            (y :: xs).countP (fun z => z ≤ o) + 1 := by
          rw [List.countP_cons]
          simp [hx]
        have hxle : x ≤ greatestLE (y :: xs) o :=
          le_trans (le_of_lt hxy) (greatestLE_cons_ge y xs o hy)
        have hgr : greatestLE (x :: y :: xs) o = greatestLE (y :: xs) o := by
          show (if x ≤ o then max x (greatestLE (y :: xs) o)
            else greatestLE (y :: xs) o) = greatestLE (y :: xs) o
          rw [if_pos hx]
          omega
        refine ⟨?_, by rw [hgr]; exact hle, by omega⟩
        rw [hcount, hgr]
        obtain ⟨k, hk⟩ : ∃ k, (y :: xs).countP (fun z => z ≤ o) = k + 1 :=
          ⟨(y :: xs).countP (fun z => z ≤ o) - 1, by omega⟩
        rw [hk]
        simp only [Nat.add_sub_cancel]
        have hstep : (x :: y :: xs).getD (k + 1) 0 = (y :: xs).getD k 0 := by
          simp [List.getD_cons_succ]
        rw [hstep]
        have hk4 : (y :: xs).countP (fun z => z ≤ o) - 1 = k := by omega
        rw [hk4] at hget
        exact hget
      · have hall : ∀ z ∈ (y :: xs), ¬ z ≤ o := by
          intro z hz
          rcases List.mem_cons.mp hz with h | h
          · omega
          · have := hhead z hz
            have hyz := List.rel_of_pairwise_cons hxs h
            omega
        have hcount0 : (y :: xs).countP (fun z => z ≤ o) = 0 := by
          rw [List.countP_eq_zero]
          intro a ha
          simp only [decide_eq_true_eq]
          exact hall a ha
        have hcount : (x :: y :: xs).countP (fun z => z ≤ o) = 1 := by
          rw [List.countP_cons, hcount0]
          simp [hx]
        have hgr : greatestLE (x :: y :: xs) o = x := by
          simp only [greatestLE]
          rw [if_pos hx, if_neg hy]
          have h0 : greatestLE xs o = 0 :=
            greatestLE_of_none fun z hz => hall z (List.mem_cons_of_mem y hz)
          rw [h0]
          omega
        refine ⟨?_, by rw [hgr]; exact hx, by omega⟩
        rw [hcount, hgr]
        rfl

/-- C7.  With the line-offset list recorded for a consumed source — `0`
plus the offset just after every newline — the position of any byte
offset has line equal to the number of newline characters before the
offset plus one, and column equal to the offset minus the greatest
recorded line start not exceeding it, plus one. -/
theorem c7_position (s : List Char) (o : Nat) :
    positionOf (lineOffsetsOf s) o =
      some ⟨newlinesBefore s o + 1,
        o - greatestLE (lineOffsetsOf s) o + 1⟩ := by
  have hpair := lineOffsetsOf_pairwise s
  have hcount : (lineOffsetsOf s).countP (fun x => x ≤ o) =
      newlinesBefore s o + 1 := by
    simp only [lineOffsetsOf, List.countP_cons]
    rw [countP_nlOffsets s 0 o]
    simp [newlinesBefore]
  have hline : ((lineOffsetsOf s).findIdx? (fun x => o < x)).getD
      (lineOffsetsOf s).length = newlinesBefore s o + 1 := by
    have h5 := findIdx?_getD_sorted o (lineOffsetsOf s) 0 hpair
    simpa [hcount] using h5
  obtain ⟨hget, hgle, hcpos⟩ :=
    getD_countP_sorted o (nlOffsetsFrom s 0) 0 hpair (Nat.zero_le o)
  have hcle : (lineOffsetsOf s).countP (fun x => x ≤ o) ≤
      (lineOffsetsOf s).length := List.countP_le_length _
  have hidx : newlinesBefore s o + 1 - 1 < (lineOffsetsOf s).length := by
    rw [hcount] at hcle
    omega
  have hget2 : (lineOffsetsOf s).get ⟨newlinesBefore s o + 1 - 1, hidx⟩ =
      greatestLE (lineOffsetsOf s) o := by
    have h6 : (lineOffsetsOf s).getD (newlinesBefore s o + 1 - 1) 0 =
        greatestLE (lineOffsetsOf s) o := by
      have h7 : (lineOffsetsOf s).countP (fun x => x ≤ o) - 1 =
          newlinesBefore s o + 1 - 1 := by omega
      rw [← h7]
      exact hget
    rw [List.getD_eq_get (lineOffsetsOf s) 0 hidx] at h6
    exact h6
  have hgle2 : greatestLE (lineOffsetsOf s) o ≤ o := hgle
  simp only [positionOf]
  rw [hline]
  rw [if_neg (Nat.succ_ne_zero _), dif_pos hidx, hget2, if_pos hgle2]

/-- C7 has no hypothesis, but the concrete instance documents the
computation: in `"ab\ncd\ne"` offset `4` sits on line 2 at column 2. -/
theorem c7_example :
    positionOf (lineOffsetsOf "ab\ncd\ne".data) 4 = some ⟨2, 2⟩ := by
  decide

/-- Environments reachable from construction: `GherkinEnv::default()`,
`GherkinEnv::new(language)` (which uses `..Default::default()`), and any
sequence of the mutating operations. -/
inductive ReachableEnv : Env → Prop where
  | base : ReachableEnv Env.default
  | baseNew (code : String) :
      ReachableEnv { Env.default with language := code }
  | step (env : Env) (op : EnvOp) :
      ReachableEnv env → ReachableEnv (env.applyOp op)

/-- A `findIdx?` scan that fails rejects every element. -/
lemma findIdx?_none_all {p : Nat → Bool} :
    ∀ (L : List Nat) (i : Nat), L.findIdx? p i = none →
      ∀ x ∈ L, p x = false := by
  intro L
  induction L with
  | nil => intro i _ x hx; cases hx
  | cons y ys ih =>
      intro i h x hx
      rw [List.findIdx?_cons] at h
      by_cases hy : p y = true
      · rw [if_pos hy] at h; cases h
      · rw [if_neg hy] at h
        rcases List.mem_cons.mp hx with rfl | hx2
        · exact Bool.eq_false_iff.mpr hy
        · exact ih (i + 1) h x hx2

/-- A successful `findIdx?` scan starting at `i` returns an index at
least `i`, within `i` plus the length, with every element strictly
before the found one rejected. -/
lemma findIdx?_some_facts {p : Nat → Bool} :
    ∀ (L : List Nat) (i j : Nat), L.findIdx? p i = some j →
      i ≤ j ∧ j - i < L.length ∧
      ∀ k (hk : k < L.length), i + k < j → p (L.get ⟨k, hk⟩) = false := by
  intro L
  induction L with
  | nil => intro i j h; cases h
  | cons y ys ih =>
      intro i j h
      rw [List.findIdx?_cons] at h
      by_cases hy : p y = true
      · rw [if_pos hy] at h
        cases h
        refine ⟨le_refl _, by simp, ?_⟩
        intro k hk hik
        omega
      · rw [if_neg hy] at h
        obtain ⟨h1, h2, h3⟩ := ih (i + 1) j h
        refine ⟨by omega, by simp; omega, ?_⟩
        intro k hk hik
        cases k with
        | zero => exact Bool.eq_false_iff.mpr hy
        | succ m =>
            have hm : m < ys.length := by
              simp at hk
              omega
            have := h3 m hm (by omega)
            simpa using this

/-- For any offset list headed by `0`, the `position` computation
succeeds: the scan index is at least one, the list index is in bounds,
and the column subtraction does not underflow. -/
lemma positionOf_total (L : List Nat) (hL : L.head? = some 0) (o : Nat) :
    ∃ lc, positionOf L o = some lc ∧ 1 ≤ lc.line := by
  rcases L with _ | ⟨x, rest⟩
  · cases hL
  · have hx0 : x = 0 := by
      simp only [List.head?] at hL
      cases hL
      rfl
    subst hx0
    rcases hf : (0 :: rest).findIdx? (fun y => o < y) with _ | j
    · have hall := findIdx?_none_all (0 :: rest) 0 hf
      have hlen : (0 :: rest).length - 1 < (0 :: rest).length := by
        simp
      have hbase : (0 :: rest).get ⟨(0 :: rest).length - 1, hlen⟩ ≤ o := by
        have hmem := List.get_mem (0 :: rest) ((0 :: rest).length - 1) hlen
        have := hall _ hmem
        simpa using this
      refine ⟨⟨(0 :: rest).length, o - (0 :: rest).get
        ⟨(0 :: rest).length - 1, hlen⟩ + 1⟩, ?_, by simp⟩
      simp only [positionOf, hf, Option.getD_none]
      rw [if_neg (by simp), dif_pos hlen, if_pos hbase]
    · obtain ⟨h1, h2, h3⟩ := findIdx?_some_facts (0 :: rest) 0 j hf
      have hj1 : 1 ≤ j := by
        rcases Nat.eq_zero_or_pos j with rfl | h
        · have h0 : ((fun y => decide (o < y)) 0) = false := by
            simp
          rw [List.findIdx?_cons] at hf
          rw [if_neg (by simp)] at hf
          obtain ⟨h1b, _, _⟩ := findIdx?_some_facts rest 1 0 hf
          omega
        · exact h
      have hidx : j - 1 < (0 :: rest).length := by
        simp only [List.length_cons] at h2 ⊢
        omega
      have hbase : (0 :: rest).get ⟨j - 1, hidx⟩ ≤ o := by
        rcases Nat.eq_or_lt_of_le hj1 with h | h
        · cases h
          exact Nat.zero_le o
        · have := h3 (j - 1) hidx (by omega)
          simpa using this
      refine ⟨⟨j, o - (0 :: rest).get ⟨j - 1, hidx⟩ + 1⟩, ?_, hj1⟩
      simp only [positionOf, hf, Option.getD_some]
      rw [if_neg (by omega), dif_pos hidx, if_pos hbase]

/-- Fresh construction and `increment_nl` keep the offset list non-empty
with head `0`; no other operation touches it. -/
lemma reachable_lineOffsets {env : Env} (h : ReachableEnv env) :
    env.lineOffsets ≠ [] ∧ env.lineOffsets.head? = some 0 := by
  induction h with
  | base => exact ⟨by simp [Env.default], rfl⟩
  | baseNew code => exact ⟨by simp [Env.default], rfl⟩
  | step env op _ ih =>
      obtain ⟨hne, hhead⟩ := ih
      cases op with
      | setLanguage code =>
          simp only [Env.applyOp, Env.setLanguage]
          split
          · exact ⟨hne, hhead⟩
          · simp only [Env.setFatalError]
            split
            · exact ⟨hne, hhead⟩
            · exact ⟨hne, hhead⟩
      | setFatalError e =>
          simp only [Env.applyOp, Env.setFatalError]
          split
          · exact ⟨hne, hhead⟩
          · exact ⟨hne, hhead⟩
      | incrementNl offset =>
          simp only [Env.applyOp, Env.incrementNl]
          split
          · exact ⟨hne, hhead⟩
          · refine ⟨by simp, ?_⟩
            simp only [List.head?_append, hhead]
            rfl
      | setLastError e => exact ⟨hne, hhead⟩
      | setKeyword kw => exact ⟨hne, hhead⟩
      | clearKeyword => exact ⟨hne, hhead⟩
      | takeKeyword => exact ⟨hne, hhead⟩
      | setLastStep ty => exact ⟨hne, hhead⟩
      | clearLastStep => exact ⟨hne, hhead⟩
      | setEscaped b => exact ⟨hne, hhead⟩

/-- C10.  Every parse environment reachable from construction keeps a
non-empty line-offset list whose first element is `0`, and therefore
`GherkinEnv::position` is total on it: for every queried offset the line
is at least one, the list index is in bounds and the column subtraction
does not underflow — no panic is possible. -/
theorem c10_position_no_panic (env : Env) (h : ReachableEnv env) :
    env.lineOffsets ≠ [] ∧ env.lineOffsets.head? = some 0 ∧
    ∀ offset, ∃ lc, positionOf env.lineOffsets offset = some lc ∧
      1 ≤ lc.line := by
  obtain ⟨hne, hhead⟩ := reachable_lineOffsets h
  exact ⟨hne, hhead, fun offset => positionOf_total env.lineOffsets hhead offset⟩

/-- C10 witness: the default environment after recording two newlines
still yields a position for offset 7. -/
theorem c10_witness :
    ∃ lc, positionOf ((Env.default.applyOp (.incrementNl 3)).applyOp
      (.incrementNl 6)).lineOffsets 7 = some lc ∧ 1 ≤ lc.line :=
  (c10_position_no_panic _
    (ReachableEnv.step _ _ (ReachableEnv.step _ _ ReachableEnv.base))).2.2 7

end Gherkin
